import Mathlib

/-!
Verification development for the Brutus repository (classical ciphers:
Caesar, Vigenere, and a minimal Enigma-style rotor machine, plus breakers).

The repository contains two revisions of the cipher module:
- `src/encrypt.py` is embedded in namespace `Top`;
- `src/src/encrypt.py` (the package revision, also the home of the Enigma
  engine and of `break_lib.py`) is embedded in namespace `Pkg`.

Symbols are modelled by an arbitrary type with decidable equality, texts and
alphabets by lists of symbols.  Python dicts built from pair sequences are
modelled by `dlookup` (later bindings overwrite earlier ones), `enumerate`
by `pyEnum`, generators whose element computations can raise by `mapE`
(consumption stops at the first error), and raised exceptions by
`Except.error` carrying the message.
-/

/-- Lookup in a Python dict built by inserting the pairs in order: the value
of the last pair whose key matches wins, `none` when no pair matches. -/
def dlookup {α β : Type} [DecidableEq α] (pairs : List (α × β)) (k : α) : Option β :=
  ((pairs.filter (fun p => decide (p.1 = k))).getLast?).map Prod.snd

/-- Python `enumerate` with explicit start index. -/
def pyEnum {α : Type} : Nat → List α → List (Nat × α)
  | _, [] => []
  | n, a :: l => (n, a) :: pyEnum (n + 1) l

/-- Eager consumption of a generator whose per-element computation can raise:
the first raised error aborts the traversal. -/
def mapE {α β : Type} (f : α → Except String β) : List α → Except String (List β)
  | [] => .ok []
  | a :: l =>
    match f a with
    | .error e => .error e
    | .ok b =>
      match mapE f l with
      | .error e => .error e
      | .ok bs => .ok (b :: bs)

/-- A Vigenere key element: either an integer offset or a sequence of symbols
that gets hashed into an offset (`key[i % len(key)]` in the source is either
an `int` or a symbol sequence). -/
inductive VKeyElem (α : Type) where
  | num (n : Int)
  | seq (s : List α)
deriving DecidableEq

namespace Top

variable {α : Type} [DecidableEq α]

/-- Embeds `invert_table` of `src/encrypt.py`: the dict
`{value: key for key, value in enumerate(table)}` as its pair list
(duplicated symbols silently overwrite, so `dlookup` yields the last index). -/
def invert_table (table : List α) : List (α × Nat) :=
  (pyEnum 0 table).map (fun p => (p.2, p.1))

/-- Embeds `hash_sequence` of `src/encrypt.py`: sum of the inverted-table
indices of the symbols of `text` that occur in the table, modulo the table
length.  Symbols absent from the table are skipped. -/
def hash_sequence (text : List α) (table : List α) : Int :=
  (((text.filterMap (fun s => dlookup (invert_table table) s)).map
      (fun i => (i : Int))).sum).emod table.length

/-- Embeds `shift_symbol` of `src/encrypt.py` (the revision that RAISES
`ValueError` when the symbol is not in the alphabet):
`table[(table.index(symbol) + shift) % len(table)]`. -/
def shift_symbol (symbol : α) (shift : Int) (table : List α) : Except String α :=
  if h : symbol ∈ table then
    .ok (table.get
      ⟨(((table.indexOf symbol : Int) + shift).emod table.length).toNat, by
        have hlen : 0 < table.length := List.length_pos.mpr (List.ne_nil_of_mem h)
        have h0 : (0 : Int) ≤ ((table.indexOf symbol : Int) + shift).emod table.length :=
          Int.emod_nonneg _ (by omega)
        have h1 : ((table.indexOf symbol : Int) + shift).emod table.length < table.length :=
          Int.emod_lt_of_pos _ (by omega)
        omega⟩)
  else
    .error "The symbol is not in the alphabet."

/-- Embeds `caesar_shift_sequence` of `src/encrypt.py`: shift every symbol,
lazily; consuming the generator stops at the first raised error. -/
def caesar_shift_sequence (text : List α) (offset : Int) (table : List α) :
    Except String (List α) :=
  mapE (fun s => shift_symbol s offset table) text

/-- Embeds `caesar_encrypt_sequence` of `src/encrypt.py`. -/
def caesar_encrypt_sequence (text : List α) (key : Int) (table : List α) :
    Except String (List α) :=
  caesar_shift_sequence text key table

/-- Embeds `caesar_decrypt_sequence` of `src/encrypt.py`: shifts by `-key`. -/
def caesar_decrypt_sequence (text : List α) (key : Int) (table : List α) :
    Except String (List α) :=
  caesar_shift_sequence text (-key) table

/-- The per-position sub-key of the Vigenere cipher: an `int` element is used
directly, any other element is hashed via `hash_sequence`. -/
def subkey_offset (e : VKeyElem α) (table : List α) : Int :=
  match e with
  | .num n => n
  | .seq s => hash_sequence s table

/-- Embeds `vigenere_shift_sequence` of `src/encrypt.py`.  The `assert` on
`assert_len` runs before the generator is built; `key[i % len(key)]` raises
`ZeroDivisionError` on an empty key as soon as an element is consumed. -/
def vigenere_shift_sequence (text : List α) (key : List (VKeyElem α))
    (reverse : Bool) (table : List α) (assert_len : Bool) :
    Except String (List α) :=
  if assert_len ∧ key.length ≠ text.length then
    .error "The key must be as long as the text."
  else if key.length = 0 ∧ text.length ≠ 0 then
    .error "ZeroDivisionError"
  else
    mapE (fun p =>
        shift_symbol p.2
          (subkey_offset (key.getD (p.1 % key.length) (VKeyElem.num 0)) table *
            (if reverse then -1 else 1))
          table)
      (pyEnum 0 text)

/-- Embeds `vigenere_encrypt_sequence` of `src/encrypt.py`. -/
def vigenere_encrypt_sequence (text : List α) (key : List (VKeyElem α))
    (table : List α) : Except String (List α) :=
  vigenere_shift_sequence text key false table false

/-- Embeds `vigenere_decrypt_sequence` of `src/encrypt.py`: `reverse=True`. -/
def vigenere_decrypt_sequence (text : List α) (key : List (VKeyElem α))
    (table : List α) : Except String (List α) :=
  vigenere_shift_sequence text key true table false

end Top

namespace Pkg

variable {α : Type} [DecidableEq α]

/-- Embeds `invert_table` of `src/src/encrypt.py` (same body as the `Top`
revision: no duplicate check, later indices overwrite). -/
def invert_table (table : List α) : List (α × Nat) :=
  (pyEnum 0 table).map (fun p => (p.2, p.1))

/-- A Python value that can reach `hash_sequence` of `src/src/encrypt.py`:
an `int`, a scalar symbol (a one-symbol `str`/`bytes` — when a Vigenere key
is a string, `key[i % len(key)]` is exactly such a value), or a sequence of
symbols (a list argument).  In the source `S = str | bytes | int`; the
`isinstance(text, S)` test is true for the first two constructors. -/
inductive PyVal (α : Type) where
  | int (n : Int)
  | sym (s : α)
  | seq (s : List α)
deriving DecidableEq

/-- Embeds `hash_sequence` of `src/src/encrypt.py`, both branches: a scalar
`str`/`bytes` argument is resolved via `table.index`, which RAISES
`ValueError` when the symbol is absent from the table; an `int` argument is
returned as is; a sequence argument takes the generic branch, summing the
inverted-table indices of its symbols that occur in the table, modulo the
table length (the trailing `TypeError` branch is unreachable for these
three shapes). -/
def hash_sequence (text : PyVal α) (table : List α) : Except String Int :=
  match text with
  | .sym s =>
    if s ∈ table then .ok ((table.indexOf s : Int))
    else .error "ValueError: subkey is not in list"
  | .int n => .ok n
  | .seq l =>
    .ok ((((l.filterMap (fun x => dlookup (invert_table table) x)).map
        (fun i => (i : Int))).sum).emod table.length)

/-- The value `hash_sequence` of `src/src/encrypt.py` computes when it does
not raise (proof-side companion of `hash_sequence`). -/
def subkey_value (e : PyVal α) (table : List α) : Int :=
  match e with
  | .int n => n
  | .sym s => (table.indexOf s : Int)
  | .seq l =>
    (((l.filterMap (fun x => dlookup (invert_table table) x)).map
        (fun i => (i : Int))).sum).emod table.length

/-- Embeds `shift_symbol` of `src/src/encrypt.py` (the revision that returns
out-of-alphabet symbols UNCHANGED: the `raise` is commented out). -/
def shift_symbol (symbol : α) (shift : Int) (table : List α) : α :=
  if h : symbol ∈ table then
    table.get
      ⟨(((table.indexOf symbol : Int) + shift).emod table.length).toNat, by
        have hlen : 0 < table.length := List.length_pos.mpr (List.ne_nil_of_mem h)
        have h0 : (0 : Int) ≤ ((table.indexOf symbol : Int) + shift).emod table.length :=
          Int.emod_nonneg _ (by omega)
        have h1 : ((table.indexOf symbol : Int) + shift).emod table.length < table.length :=
          Int.emod_lt_of_pos _ (by omega)
        omega⟩
  else
    symbol

/-- Embeds `caesar_shift_sequence` of `src/src/encrypt.py`. -/
def caesar_shift_sequence (text : List α) (offset : Int) (table : List α) : List α :=
  text.map (fun s => shift_symbol s offset table)

/-- Embeds `caesar_encrypt_sequence` of `src/src/encrypt.py`. -/
def caesar_encrypt_sequence (text : List α) (key : Int) (table : List α) : List α :=
  caesar_shift_sequence text key table

/-- Embeds `caesar_decrypt_sequence` of `src/src/encrypt.py`. -/
def caesar_decrypt_sequence (text : List α) (key : Int) (table : List α) : List α :=
  caesar_shift_sequence text (-key) table

/-- The per-position sub-key resolution of `vigenere_shift_sequence` in
`src/src/encrypt.py`: `hash_sequence(skey, table) if not isinstance(skey,
int) else skey` — an `int` element is used directly, anything else goes
through `hash_sequence`, which can raise for scalar symbols absent from the
table. -/
def vigenere_subkey (e : PyVal α) (table : List α) : Except String Int :=
  match e with
  | .int n => .ok n
  | _ => hash_sequence e table

/-- Embeds `vigenere_shift_sequence` of `src/src/encrypt.py`: the alphabet is
an optional argument and `None` raises `ValueError`; the `assert_len`
parameter is accepted but IGNORED (no length assertion exists in this
revision); an empty key raises `ZeroDivisionError` at consumption; the
per-position sub-key hash can raise `ValueError`, which aborts consumption
at that element. -/
def vigenere_shift_sequence (text : List α) (key : List (PyVal α))
    (reverse : Bool) (table : Option (List α)) (assert_len : Bool) :
    Except String (List α) :=
  match table with
  | none => .error "The alphabet must be specified."
  | some table =>
    if key.length = 0 ∧ text.length ≠ 0 then
      .error "ZeroDivisionError"
    else
      mapE (fun p =>
          match vigenere_subkey (key.getD (p.1 % key.length) (PyVal.int 0)) table with
          | .error e => .error e
          | .ok off =>
            .ok (shift_symbol p.2 (off * (if reverse then -1 else 1)) table))
        (pyEnum 0 text)

/-- Embeds `vigenere_encrypt_sequence` of `src/src/encrypt.py`. -/
def vigenere_encrypt_sequence (text : List α) (key : List (PyVal α))
    (table : List α) : Except String (List α) :=
  vigenere_shift_sequence text key false (some table) false

/-- Embeds `vigenere_decrypt_sequence` of `src/src/encrypt.py`:
`reverse=True`. -/
def vigenere_decrypt_sequence (text : List α) (key : List (PyVal α))
    (table : List α) : Except String (List α) :=
  vigenere_shift_sequence text key true (some table) false

/-- Embeds class `EnigmaRotor` of `src/src/encrypt.py`: an alphabet, a
current rotation `position`, and the initial mapping list. -/
structure EnigmaRotor (α : Type) where
  alphabet : List α
  position : Nat
  init_mapping : List α
deriving DecidableEq

/-- Embeds the `mapping_list` property:
`init_mapping[position:] + init_mapping[:position]`. -/
def EnigmaRotor.mapping_list {α : Type} (r : EnigmaRotor α) : List α :=
  r.init_mapping.drop r.position ++ r.init_mapping.take r.position

/-- Embeds the `mapping` property: `dict(zip(alphabet, mapping_list))`,
kept as the zipped pair list (lookups go through `dlookup`). -/
def EnigmaRotor.mapping {α : Type} (r : EnigmaRotor α) : List (α × α) :=
  r.alphabet.zip r.mapping_list

/-- Embeds the `reverse_mapping` property: `dict(zip(mapping_list, alphabet))`. -/
def EnigmaRotor.reverse_mapping {α : Type} (r : EnigmaRotor α) : List (α × α) :=
  r.mapping_list.zip r.alphabet

/-- Embeds `EnigmaRotor.__call__`: forward-map a symbol, passing through
symbols absent from the mapping. -/
def EnigmaRotor.callSym {α : Type} [DecidableEq α] (r : EnigmaRotor α) (key : α) : α :=
  match dlookup r.mapping key with
  | some v => v
  | none => key

/-- Embeds `EnigmaRotor.__getitem__`: reverse-map a symbol, passing through
symbols absent from the reverse mapping. -/
def EnigmaRotor.getSym {α : Type} [DecidableEq α] (r : EnigmaRotor α) (key : α) : α :=
  match dlookup r.reverse_mapping key with
  | some v => v
  | none => key

/-- Embeds `EnigmaRotor.__next__`: advance the position by one, modulo the
alphabet length. -/
def EnigmaRotor.next {α : Type} (r : EnigmaRotor α) : EnigmaRotor α :=
  { r with position := (r.position + 1) % r.alphabet.length }

/-- Embeds `enigma_apply_recursive` of `src/src/encrypt.py`: forward
application composes `rotors[-1](... rotors[:-1] ...)` (rotor 0 first,
rotor N-1 last); inverted application composes
`rotors[0][... rotors[1:] ...]` (rotor N-1's inverse first). -/
def enigma_apply_recursive {α : Type} [DecidableEq α] (symbol : α)
    (rotors : List (EnigmaRotor α)) (inverted : Bool) : α :=
  match h : rotors with
  | [] => symbol
  | r :: rest =>
    if inverted then
      r.getSym (enigma_apply_recursive symbol rest true)
    else
      (rotors.getLast (by simp [h])).callSym
        (enigma_apply_recursive symbol rotors.dropLast false)
termination_by rotors.length
decreasing_by
  all_goals subst h
  · simp
  · simp [List.length_dropLast]

/-- Embeds the rotor re-initialisation of `EnigmaContext.rotors`: each rotor
is rebuilt from its `init_mapping` with position `offset % len(alphabet)`
(the rotor's own stored position is ignored). -/
def context_rotors {α : Type} (rotors : List (EnigmaRotor α)) (offsets : List Int) :
    List (EnigmaRotor α) :=
  (rotors.zip offsets).map (fun ro =>
    { ro.1 with position := ((ro.2).emod ro.1.alphabet.length).toNat })

/-- Embeds the iteration of `EnigmaContext.__iter__`:
`zip(text, *rotors)` pulls `next()` on every rotor before yielding each
symbol, so every rotor advances once per processed symbol, starting before
the first one. -/
def context_iter {α : Type} : List α → List (EnigmaRotor α) →
    List (α × List (EnigmaRotor α))
  | [], _ => []
  | s :: rest, rs =>
    (s, rs.map EnigmaRotor.next) :: context_iter rest (rs.map EnigmaRotor.next)

/-- Embeds `enigma_apply_sequence` of `src/src/encrypt.py`: checks that the
rotor and offset counts match, then maps `enigma_apply_recursive` over the
context iteration (the `degenify` decorator consumes the generator eagerly,
so each symbol is mapped right after the advance of the rotors). -/
def enigma_apply_sequence {α : Type} [DecidableEq α] (text : List α)
    (rotors : List (EnigmaRotor α)) (offsets : List Int) (inverted : Bool) :
    Except String (List α) :=
  if rotors.length ≠ offsets.length then
    .error "The number of rotors and offsets must match."
  else
    .ok ((context_iter text (context_rotors rotors offsets)).map
      (fun p => enigma_apply_recursive p.1 p.2 inverted))

/-- Embeds `enigma_encrypt_sequence` of `src/src/encrypt.py`. -/
def enigma_encrypt_sequence {α : Type} [DecidableEq α] (text : List α)
    (rotors : List (EnigmaRotor α)) (offsets : List Int) :
    Except String (List α) :=
  enigma_apply_sequence text rotors offsets false

/-- Embeds `enigma_decrypt_sequence` of `src/src/encrypt.py`:
`inverted=True`. -/
def enigma_decrypt_sequence {α : Type} [DecidableEq α] (text : List α)
    (rotors : List (EnigmaRotor α)) (offsets : List Int) :
    Except String (List α) :=
  enigma_apply_sequence text rotors offsets true

/-- Embeds `guess_text_with_words` of `src/src/break_lib.py` (inside
`caesar_break`): decrypt under the shift, split on spaces, then count the
tokens that occur in `words` — where the local `words = decrypted.split(' ')`
SHADOWS the loaded dictionary (the first parameter here), exactly as in the
source.  Returns `(shift, count)`. -/
def guess_text_with_words (dict_words : List (List Char)) (text : List Char)
    (alphabet : List Char) (shift : Int) : Int × Nat :=
  let decrypted := caesar_decrypt_sequence text shift alphabet
  let ws := List.splitOn ' ' decrypted
  (shift, (ws.filter (fun w => decide (w ∈ ws))).length)

end Pkg

namespace Top

/-- Embeds the `FREQUENCIES["en"]` table of `src/break.py` (letter →
relative frequency, per cent). -/
def FREQUENCIES_en : List (Char × Rat) :=
  [('a', (8167 : Rat) / 1000), ('b', (1492 : Rat) / 1000), ('c', (2782 : Rat) / 1000),
   ('d', (4253 : Rat) / 1000), ('e', (12702 : Rat) / 1000), ('f', (2228 : Rat) / 1000),
   ('g', (2015 : Rat) / 1000), ('h', (6094 : Rat) / 1000), ('i', (6966 : Rat) / 1000),
   ('j', (153 : Rat) / 1000), ('k', (772 : Rat) / 1000), ('l', (4025 : Rat) / 1000),
   ('m', (2406 : Rat) / 1000), ('n', (6749 : Rat) / 1000), ('o', (7507 : Rat) / 1000),
   ('p', (1929 : Rat) / 1000), ('q', (95 : Rat) / 1000), ('r', (5987 : Rat) / 1000),
   ('s', (6327 : Rat) / 1000), ('t', (9056 : Rat) / 1000), ('u', (2758 : Rat) / 1000),
   ('v', (978 : Rat) / 1000), ('w', (2360 : Rat) / 1000), ('x', (150 : Rat) / 1000),
   ('y', (1974 : Rat) / 1000), ('z', (74 : Rat) / 1000)]

/-- The module-level `LANGUAGE` constant of `src/break.py`. -/
def LANGUAGE : String := "en"

/-- The `FREQUENCIES` dict of `src/break.py` (one supported language). -/
def FREQUENCIES : List (String × List (Char × Rat)) :=
  [("en", FREQUENCIES_en)]

/-- Embeds `get_frequencies` of `src/break.py`: raises `ValueError` for an
unsupported language. -/
def get_frequencies (language : String) : Except String (List (Char × Rat)) :=
  match dlookup FREQUENCIES language with
  | some f => .ok f
  | none => .error ("Language " ++ language ++ " is not supported.")

/-- Embeds `calculate_text_frequencies` of `src/break.py`.  The letter dict
is built from `get_frequencies(LANGUAGE)` (the module constant — the
`language` parameter is not consulted by the body); for each letter the
occurrence indices are collected, and the frequency is the occurrence count
divided by `len(text)`, which raises `ZeroDivisionError` when the text is
empty (the letter loop is non-empty, so the division is always reached). -/
def calculate_text_frequencies (text : List Char) (language : String) :
    Except String (List (Char × (List Nat × Rat))) :=
  match get_frequencies LANGUAGE with
  | .error e => .error e
  | .ok freqs =>
    if freqs.length ≠ 0 ∧ text.length = 0 then
      .error "ZeroDivisionError"
    else
      .ok (freqs.map (fun lf =>
        (lf.1,
         (((pyEnum 0 text).filter (fun p => decide (p.2 = lf.1))).map Prod.fst,
          ((((pyEnum 0 text).filter (fun p => decide (p.2 = lf.1))).length : Rat) /
            (text.length : Rat))))))

end Top

/-! Helper lemmas about the embedding primitives. -/

lemma pyEnum_length {α : Type} (n : Nat) (l : List α) :
    (pyEnum n l).length = l.length := by
  induction l generalizing n with
  | nil => rfl
  | cons a t ih => simp [pyEnum, ih]

lemma pyEnum_get {α : Type} (n : Nat) (l : List α) (j : Nat)
    (hj : j < (pyEnum n l).length) (hj2 : j < l.length) :
    (pyEnum n l).get ⟨j, hj⟩ = (n + j, l.get ⟨j, hj2⟩) := by
  induction l generalizing n j with
  | nil => cases hj2
  | cons a t ih =>
    cases j with
    | zero => simp [pyEnum]
    | succ j =>
      have h1 : j < (pyEnum (n + 1) t).length := by
        simpa [pyEnum_length] using Nat.lt_of_succ_lt_succ hj2
      have hrec := ih (n + 1) j h1 (Nat.lt_of_succ_lt_succ hj2)
      have hnj : n + 1 + j = n + (j + 1) := by omega
      simp only [pyEnum, List.get_cons_succ, hrec, hnj]

lemma pyEnum_mem_elim {α : Type} {p : Nat × α} {n : Nat} {l : List α}
    (h : p ∈ pyEnum n l) :
    ∃ j, ∃ hj : j < l.length, p = (n + j, l.get ⟨j, hj⟩) := by
  induction l generalizing n with
  | nil => cases h
  | cons a t ih =>
    rcases List.mem_cons.mp h with h1 | h1
    · exact ⟨0, by simp, by simpa using h1⟩
    · obtain ⟨j, hj, hp⟩ := ih h1
      refine ⟨j + 1, Nat.succ_lt_succ hj, ?_⟩
      rw [hp]
      have hnj : n + 1 + j = n + (j + 1) := by omega
      simp [hnj]

lemma pyEnum_mem_intro {α : Type} (n : Nat) (l : List α) (j : Nat)
    (hj : j < l.length) : (n + j, l.get ⟨j, hj⟩) ∈ pyEnum n l := by
  induction l generalizing n j with
  | nil => cases hj
  | cons a t ih =>
    cases j with
    | zero => simp [pyEnum]
    | succ j =>
      have hrec := ih (n + 1) j (Nat.lt_of_succ_lt_succ hj)
      have hnj : n + 1 + j = n + (j + 1) := by omega
      apply List.mem_cons_of_mem
      simpa [← hnj] using hrec

lemma mapE_ok_of_getElem {α β : Type} (f : α → Except String β) :
    ∀ (l : List α) (out : List β), l.length = out.length →
      (∀ j (hj : j < l.length) (hj2 : j < out.length),
        f (l.get ⟨j, hj⟩) = .ok (out.get ⟨j, hj2⟩)) →
      mapE f l = .ok out
  | [], [], _, _ => rfl
  | [], _ :: _, hl, _ => by cases hl
  | _ :: _, [], hl, _ => by cases hl
  | a :: l, b :: out, hl, hf => by
    have h0 : f a = .ok b := hf 0 (by simp) (by simp)
    have ih : mapE f l = .ok out :=
      mapE_ok_of_getElem f l out (by simpa using hl)
        (fun j hj hj2 => hf (j + 1) (Nat.succ_lt_succ hj) (Nat.succ_lt_succ hj2))
    simp [mapE, h0, ih]

lemma mapE_ok_of_mem {α β : Type} (f : α → Except String β) (g : α → β) :
    ∀ l : List α, (∀ a ∈ l, f a = .ok (g a)) → mapE f l = .ok (l.map g)
  | [], _ => rfl
  | a :: l, hf => by
    have h0 : f a = .ok (g a) := hf a (by simp)
    have ih : mapE f l = .ok (l.map g) :=
      mapE_ok_of_mem f g l (fun x hx => hf x (List.mem_cons_of_mem a hx))
    simp [mapE, h0, ih]

lemma mapE_map {α β γ : Type} (f : β → Except String γ) (g : α → β) :
    ∀ l : List α, mapE f (l.map g) = mapE (fun a => f (g a)) l
  | [] => rfl
  | a :: l => by
    simp only [List.map_cons, mapE, mapE_map f g l]

lemma mapE_error_mem {α β : Type} (f : α → Except String β) :
    ∀ (l : List α) (e : String), mapE f l = .error e → ∃ a ∈ l, f a = .error e
  | [], e, h => by cases h
  | a :: l, e, h => by
    revert h
    simp only [mapE]
    cases hfa : f a with
    | error e2 => intro h; cases h; exact ⟨a, by simp, hfa⟩
    | ok b =>
      cases hml : mapE f l with
      | error e2 =>
        intro h
        cases h
        obtain ⟨x, hx, hfx⟩ := mapE_error_mem f l e hml
        exact ⟨x, List.mem_cons_of_mem a hx, hfx⟩
      | ok bs => intro h; cases h

lemma filter_zip_eq_nil {α β : Type} [DecidableEq α] (x : α) :
    ∀ (a : List α) (b : List β), x ∉ a →
      (a.zip b).filter (fun p => decide (p.1 = x)) = []
  | [], _, _ => by simp
  | _ :: _, [], _ => by simp
  | a0 :: as, b0 :: bs, hx => by
    have h1 : ¬(a0 = x) := fun h => hx (by simp [h])
    have h2 : x ∉ as := fun h => hx (List.mem_cons_of_mem a0 h)
    simp [List.zip_cons_cons, List.filter_cons, h1, filter_zip_eq_nil x as bs h2]

lemma dlookup_zip_of_not_mem {α β : Type} [DecidableEq α] (x : α)
    (a : List α) (b : List β) (hx : x ∉ a) : dlookup (a.zip b) x = none := by
  simp [dlookup, filter_zip_eq_nil x a b hx]

lemma dlookup_zip_get {α β : Type} [DecidableEq α] :
    ∀ (a : List α) (b : List β), a.Nodup →
      ∀ (j : Nat) (hja : j < a.length) (hjb : j < b.length),
        dlookup (a.zip b) (a.get ⟨j, hja⟩) = some (b.get ⟨j, hjb⟩)
  | [], _, _, j, hja, _ => by cases hja
  | _ :: _, [], _, j, _, hjb => by cases hjb
  | a0 :: as, b0 :: bs, hnd, 0, hja, hjb => by
    have h1 : a0 ∉ as := (List.nodup_cons.mp hnd).1
    simp [dlookup, List.zip_cons_cons, List.filter_cons,
      filter_zip_eq_nil a0 as bs h1]
  | a0 :: as, b0 :: bs, hnd, j + 1, hja, hjb => by
    have h1 : a0 ∉ as := (List.nodup_cons.mp hnd).1
    have h2 : as.get ⟨j, Nat.lt_of_succ_lt_succ hja⟩ ∈ as := List.get_mem _ _ _
    have h3 : ¬(a0 = as.get ⟨j, Nat.lt_of_succ_lt_succ hja⟩) :=
      fun h => h1 (h ▸ h2)
    have ih := dlookup_zip_get as bs (List.nodup_cons.mp hnd).2 j
      (Nat.lt_of_succ_lt_succ hja) (Nat.lt_of_succ_lt_succ hjb)
    rw [List.zip_cons_cons]
    show dlookup ((a0, b0) :: as.zip bs) ((a0 :: as).get ⟨j + 1, hja⟩) =
      some ((b0 :: bs).get ⟨j + 1, hjb⟩)
    simp only [List.get_cons_succ]
    unfold dlookup
    rw [List.filter_cons_of_neg (by simpa using h3)]
    exact ih

lemma dlookup_eq_some_of_mem_keys {α β : Type} [DecidableEq α]
    (pairs : List (α × β)) (k : α) (h : ∃ p ∈ pairs, p.1 = k) :
    ∃ v, dlookup pairs k = some v ∧ (k, v) ∈ pairs := by
  obtain ⟨p, hp, hpk⟩ := h
  have hne : pairs.filter (fun p => decide (p.1 = k)) ≠ [] :=
    List.ne_nil_of_mem (List.mem_filter.mpr ⟨hp, by simp [hpk]⟩)
  obtain ⟨q, hq⟩ : ∃ q, (pairs.filter (fun p => decide (p.1 = k))).getLast? = some q :=
    ⟨_, List.getLast?_eq_getLast_of_ne_nil hne⟩
  have hqmem : q ∈ pairs.filter (fun p => decide (p.1 = k)) := by
    rw [List.getLast?_eq_getLast_of_ne_nil hne] at hq
    cases hq
    exact List.getLast_mem hne
  have hqp := List.mem_filter.mp hqmem
  have hqk : q.1 = k := by simpa using hqp.2
  refine ⟨q.2, by simp [dlookup, hq], ?_⟩
  have : q = (k, q.2) := by
    cases q
    simp at hqk
    simp [hqk]
  exact this ▸ hqp.1

/-! Lemmas about the shift engine. -/

lemma shift_symbol_agree {α : Type} [DecidableEq α] (s : α) (k : Int)
    (table : List α) (h : s ∈ table) :
    Top.shift_symbol s k table = .ok (Pkg.shift_symbol s k table) := by
  simp [Top.shift_symbol, Pkg.shift_symbol, h]

lemma shift_symbol_not_mem {α : Type} [DecidableEq α] (s : α) (k : Int)
    (table : List α) (h : s ∉ table) :
    Pkg.shift_symbol s k table = s := by
  simp [Pkg.shift_symbol, h]

lemma shift_symbol_mem {α : Type} [DecidableEq α] (s : α) (k : Int)
    (table : List α) (h : s ∈ table) :
    Pkg.shift_symbol s k table ∈ table := by
  simp only [Pkg.shift_symbol, dif_pos h]
  exact List.get_mem _ _ _

lemma shift_shift_cancel {α : Type} [DecidableEq α] (table : List α)
    (hnd : table.Nodup) (s : α) (k : Int) (h : s ∈ table) :
    Pkg.shift_symbol (Pkg.shift_symbol s k table) (-k) table = s := by
  have hlen : 0 < table.length := List.length_pos.mpr (List.ne_nil_of_mem h)
  have hi : table.indexOf s < table.length := List.indexOf_lt_length.mpr h
  have hA0 : (0 : Int) ≤ ((table.indexOf s : Int) + k).emod table.length :=
    Int.emod_nonneg _ (by omega)
  have hA1 : ((table.indexOf s : Int) + k).emod table.length < table.length :=
    Int.emod_lt_of_pos _ (by omega)
  set j : Nat := (((table.indexOf s : Int) + k).emod table.length).toNat with hj_def
  have hj : j < table.length := by omega
  have hcastj : (j : Int) = ((table.indexOf s : Int) + k).emod table.length := by omega
  have hinner : Pkg.shift_symbol s k table = table.get ⟨j, hj⟩ := by
    rw [Pkg.shift_symbol, dif_pos h]
  have hmem2 : table.get ⟨j, hj⟩ ∈ table := List.get_mem _ _ _
  rw [hinner, Pkg.shift_symbol, dif_pos hmem2]
  have hidxj : table.indexOf (table.get ⟨j, hj⟩) = j := by
    have := List.indexOf_getElem hnd j hj
    simpa [List.get_eq_getElem] using this
  have hfinal :
      (((table.indexOf (table.get ⟨j, hj⟩) : Int) + -k).emod table.length).toNat =
        table.indexOf s := by
    rw [hidxj]
    have hB : ((j : Int) + -k).emod table.length =
        (((table.indexOf s : Int) + k) + -k).emod table.length := by
      rw [hcastj]
      exact Int.emod_add_emod _ _ _
    have hsimp : ((table.indexOf s : Int) + k) + -k = (table.indexOf s : Int) := by ring
    have hlt : ((table.indexOf s : Int)).emod table.length = (table.indexOf s : Int) :=
      Int.emod_eq_of_lt (by omega) (by omega)
    rw [hB, hsimp, hlt]
    omega
  have hfin2 : table.get ⟨(((table.indexOf (table.get ⟨j, hj⟩) : Int) + -k).emod
      table.length).toNat, by
        have h0 : (0 : Int) ≤ ((table.indexOf (table.get ⟨j, hj⟩) : Int) + -k).emod
            table.length := Int.emod_nonneg _ (by omega)
        have h1 : ((table.indexOf (table.get ⟨j, hj⟩) : Int) + -k).emod table.length <
            table.length := Int.emod_lt_of_pos _ (by omega)
        omega⟩ = table.get ⟨table.indexOf s, hi⟩ :=
    congrArg table.get (Fin.ext hfinal)
  rw [hfin2]
  exact List.indexOf_get hi

lemma shift_symbol_error_msg {α : Type} [DecidableEq α] {s : α} {k : Int}
    {table : List α} {e : String} (h : Top.shift_symbol s k table = .error e) :
    e = "The symbol is not in the alphabet." := by
  by_cases hm : s ∈ table
  · rw [Top.shift_symbol, dif_pos hm] at h
    cases h
  · rw [Top.shift_symbol, dif_neg hm] at h
    injection h with h1
    exact h1.symm

/-! Claim theorems for the shift engine and alphabet handling. -/

/-- Claim C1: for every (duplicate-free) alphabet, integer key and text drawn
from the alphabet, Caesar decryption of the Caesar encryption returns exactly
the input text; this holds in both revisions of the module (in `src/encrypt.py`
the shifts are fallible and the composition yields `ok text`). -/
theorem c1_caesar_round_trip {α : Type} [DecidableEq α] (text : List α) (k : Int)
    (table : List α) (hnd : table.Nodup) (htext : ∀ s ∈ text, s ∈ table) :
    Pkg.caesar_decrypt_sequence (Pkg.caesar_encrypt_sequence text k table) k table =
      text ∧
    (Top.caesar_encrypt_sequence text k table).bind
      (fun c => Top.caesar_decrypt_sequence c k table) = .ok text := by
  constructor
  · simp only [Pkg.caesar_encrypt_sequence, Pkg.caesar_decrypt_sequence,
      Pkg.caesar_shift_sequence, List.map_map]
    have hpt : ∀ s ∈ text,
        (Pkg.shift_symbol (Pkg.shift_symbol s k table) (-k) table) = id s :=
      fun s hs => shift_shift_cancel table hnd s k (htext s hs)
    have h2 := List.map_congr_left hpt
    simpa using h2
  · have henc : mapE (fun s => Top.shift_symbol s k table) text =
        .ok (text.map (fun s => Pkg.shift_symbol s k table)) :=
      mapE_ok_of_mem _ _ text (fun a ha => shift_symbol_agree a k table (htext a ha))
    simp only [Top.caesar_encrypt_sequence, Top.caesar_shift_sequence, henc,
      Except.bind]
    simp only [Top.caesar_decrypt_sequence, Top.caesar_shift_sequence, mapE_map]
    have hok : ∀ a ∈ text,
        Top.shift_symbol (Pkg.shift_symbol a k table) (-k) table = .ok (id a) :=
      fun a ha => by
        rw [shift_symbol_agree _ _ _ (shift_symbol_mem a k table (htext a ha)),
          shift_shift_cancel table hnd a k (htext a ha)]
        rfl
    rw [mapE_ok_of_mem _ id text hok]
    simp

/-- Claim C1 witness at a concrete input. -/
theorem c1_witness :
    (['a', 'b', 'c'] : List Char).Nodup ∧
    (∀ s ∈ (['c', 'a'] : List Char), s ∈ (['a', 'b', 'c'] : List Char)) ∧
    (Pkg.caesar_decrypt_sequence
        (Pkg.caesar_encrypt_sequence ['c', 'a'] 5 ['a', 'b', 'c']) 5 ['a', 'b', 'c'] =
        ['c', 'a'] ∧
      (Top.caesar_encrypt_sequence ['c', 'a'] 5 ['a', 'b', 'c']).bind
        (fun c => Top.caesar_decrypt_sequence c 5 ['a', 'b', 'c']) = .ok ['c', 'a']) :=
  ⟨by decide, by decide,
    c1_caesar_round_trip ['c', 'a'] 5 ['a', 'b', 'c'] (by decide) (by decide)⟩

/-- Claim C2 (amended): in the `src/src/encrypt.py` revision, `shift_symbol`
returns out-of-alphabet symbols unchanged and cannot fail; the claim as
stated is false for the `src/encrypt.py` revision, which raises instead (see
the counterexample). -/
theorem c2_shift_symbol_pass_through {α : Type} [DecidableEq α] (s : α) (k : Int)
    (table : List α) (h : s ∉ table) : Pkg.shift_symbol s k table = s :=
  shift_symbol_not_mem s k table h

/-- Claim C2 witness at a concrete input. -/
theorem c2_witness :
    ('d' ∉ (['a', 'b', 'c'] : List Char)) ∧
    Pkg.shift_symbol 'd' 7 ['a', 'b', 'c'] = 'd' :=
  ⟨by decide, c2_shift_symbol_pass_through 'd' 7 ['a', 'b', 'c'] (by decide)⟩

/-- Claim C2 counterexample: the `src/encrypt.py` revision of `shift_symbol`
raises `ValueError` for a symbol absent from the alphabet instead of
returning it unchanged. -/
theorem c2_counterexample :
    Top.shift_symbol 'd' 7 (['a', 'b', 'c'] : List Char) =
      .error "The symbol is not in the alphabet." := rfl

/-- Claim C7 (amended): in `src/encrypt.py`, `vigenere_shift_sequence` fails
with the key-length assertion error exactly when `assert_len` is set and the
key length differs from the text length (the assertion runs before the
output generator is built); the `src/src/encrypt.py` revision ignores
`assert_len` entirely (see the counterexample). -/
theorem c7_assert_len_check {α : Type} [DecidableEq α] (text : List α)
    (key : List (VKeyElem α)) (reverse : Bool) (table : List α) (assert_len : Bool) :
    Top.vigenere_shift_sequence text key reverse table assert_len =
        .error "The key must be as long as the text." ↔
      (assert_len = true ∧ key.length ≠ text.length) := by
  rw [Top.vigenere_shift_sequence]
  by_cases h1 : ((assert_len = true) ∧ key.length ≠ text.length)
  · rw [if_pos h1]
    simp [h1]
  · rw [if_neg h1]
    by_cases h2 : (key.length = 0 ∧ text.length ≠ 0)
    · rw [if_pos h2]
      constructor
      · intro he
        injection he with hmsg
        exact absurd hmsg (by decide)
      · intro hcon
        exact absurd hcon h1
    · rw [if_neg h2]
      constructor
      · intro he
        obtain ⟨p, _, hp⟩ := mapE_error_mem _ _ _ he
        have := shift_symbol_error_msg hp
        exact absurd this (by decide)
      · intro hcon
        exact absurd hcon h1

/-- Claim C7 counterexample: the `src/src/encrypt.py` revision succeeds even
with `assert_len=True` and a key of length 2 against a text of length 1. -/
theorem c7_counterexample :
    Pkg.vigenere_shift_sequence (['a'] : List Char)
        [Pkg.PyVal.int 1, Pkg.PyVal.int 2] false (some ['a', 'b', 'c']) true =
      .ok ['b'] := rfl

/-- Claim C8 (amended): `invert_table` never fails — for every alphabet,
duplicated symbols included, it returns the enumeration dict, in which every
member symbol is mapped to a valid index holding that symbol (for a
duplicated symbol, the index of its last occurrence, as later dict insertions
overwrite earlier ones). -/
theorem c8_invert_table_never_fails {α : Type} [DecidableEq α] (table : List α)
    (s : α) (h : s ∈ table) :
    ∃ i, ∃ hi : i < table.length,
      dlookup (Top.invert_table table) s = some i ∧ table.get ⟨i, hi⟩ = s := by
  obtain ⟨⟨j, hj⟩, hget⟩ := List.mem_iff_get.mp h
  have hmemE : (0 + j, table.get ⟨j, hj⟩) ∈ pyEnum 0 table :=
    pyEnum_mem_intro 0 table j hj
  have hmemI : (table.get ⟨j, hj⟩, 0 + j) ∈ Top.invert_table table :=
    List.mem_map.mpr ⟨(0 + j, table.get ⟨j, hj⟩), hmemE, rfl⟩
  have hkey : ∃ p ∈ Top.invert_table table, p.1 = s :=
    ⟨(table.get ⟨j, hj⟩, 0 + j), hmemI, hget⟩
  obtain ⟨v, hlook, hvmem⟩ := dlookup_eq_some_of_mem_keys _ s hkey
  rw [Top.invert_table] at hvmem
  obtain ⟨q, hq, hqe⟩ := List.mem_map.mp hvmem
  obtain ⟨j2, hj2, hqeq⟩ := pyEnum_mem_elim hq
  have hq1 : q.1 = j2 := by rw [hqeq]; simp
  have hq2 : q.2 = table.get ⟨j2, hj2⟩ := by rw [hqeq]
  have hv : v = j2 := by
    have := congrArg Prod.snd hqe
    simpa [hq1] using this.symm
  have hs2 : table.get ⟨j2, hj2⟩ = s := by
    have := congrArg Prod.fst hqe
    simpa [hq2] using this
  exact ⟨v, hv ▸ hj2, hlook, by
    rw [show (⟨v, hv ▸ hj2⟩ : Fin table.length) = ⟨j2, hj2⟩ from Fin.ext hv]
    exact hs2⟩

/-- Claim C8 witness at a concrete (duplicated) input. -/
theorem c8_witness :
    ('a' ∈ (['a', 'a'] : List Char)) ∧
    (∃ i, ∃ hi : i < (['a', 'a'] : List Char).length,
      dlookup (Top.invert_table ['a', 'a']) 'a' = some i ∧
        (['a', 'a'] : List Char).get ⟨i, hi⟩ = 'a') :=
  ⟨by decide, c8_invert_table_never_fails ['a', 'a'] 'a' (by decide)⟩

/-- Claim C8 counterexample: on a duplicated alphabet, `invert_table` does
not fail — it returns the enumeration mapping, with the duplicated symbol
looked up at its last index. -/
theorem c8_counterexample :
    Top.invert_table (['a', 'a'] : List Char) = [('a', 0), ('a', 1)] ∧
    dlookup (Top.invert_table (['a', 'a'] : List Char)) 'a' = some 1 := by decide

/-! Lemmas about the Enigma rotor engine. -/

lemma mapping_list_perm {α : Type} (r : Pkg.EnigmaRotor α)
    (hperm : r.init_mapping.Perm r.alphabet) : r.mapping_list.Perm r.alphabet := by
  rw [Pkg.EnigmaRotor.mapping_list]
  exact ((List.perm_append_comm).trans
    (by rw [List.take_append_drop])).trans hperm

lemma rotor_dict_inverse {α : Type} [DecidableEq α] (r : Pkg.EnigmaRotor α)
    (hml : r.mapping_list.Perm r.alphabet) (hnd : r.alphabet.Nodup)
    (x : α) (hx : x ∈ r.alphabet) :
    ∃ y, dlookup r.mapping x = some y ∧ dlookup r.reverse_mapping y = some x := by
  have hlen : r.mapping_list.length = r.alphabet.length := hml.length_eq
  obtain ⟨⟨i, hi⟩, hget⟩ := List.mem_iff_get.mp hx
  have hndml : r.mapping_list.Nodup := (hml.nodup_iff).mpr hnd
  refine ⟨r.mapping_list.get ⟨i, by omega⟩, ?_, ?_⟩
  · rw [Pkg.EnigmaRotor.mapping, ← hget]
    exact dlookup_zip_get r.alphabet r.mapping_list hnd i hi (by omega)
  · rw [Pkg.EnigmaRotor.reverse_mapping]
    have := dlookup_zip_get r.mapping_list r.alphabet hndml i (by omega) hi
    rw [this, hget]

lemma rev_call_cancel {α : Type} [DecidableEq α] (r : Pkg.EnigmaRotor α)
    (hml : r.mapping_list.Perm r.alphabet) (hnd : r.alphabet.Nodup) (x : α) :
    r.getSym (r.callSym x) = x := by
  by_cases hx : x ∈ r.alphabet
  · obtain ⟨y, h1, h2⟩ := rotor_dict_inverse r hml hnd x hx
    rw [Pkg.EnigmaRotor.callSym, h1, Pkg.EnigmaRotor.getSym, h2]
  · have h1 : dlookup r.mapping x = none := by
      rw [Pkg.EnigmaRotor.mapping]
      exact dlookup_zip_of_not_mem x _ _ hx
    have hxml : x ∉ r.mapping_list := fun hm => hx (hml.mem_iff.mp hm)
    have h2 : dlookup r.reverse_mapping x = none := by
      rw [Pkg.EnigmaRotor.reverse_mapping]
      exact dlookup_zip_of_not_mem x _ _ hxml
    rw [Pkg.EnigmaRotor.callSym, h1, Pkg.EnigmaRotor.getSym, h2]

lemma enigma_apply_recursive_nil {α : Type} [DecidableEq α] (s : α)
    (inverted : Bool) : Pkg.enigma_apply_recursive s [] inverted = s := by
  rw [Pkg.enigma_apply_recursive]

lemma enigma_apply_recursive_inv_cons {α : Type} [DecidableEq α] (s : α)
    (r : Pkg.EnigmaRotor α) (rest : List (Pkg.EnigmaRotor α)) :
    Pkg.enigma_apply_recursive s (r :: rest) true =
      r.getSym (Pkg.enigma_apply_recursive s rest true) := by
  rw [Pkg.enigma_apply_recursive]
  simp

lemma enigma_apply_recursive_fwd_append {α : Type} [DecidableEq α] (s : α)
    (rs : List (Pkg.EnigmaRotor α)) (r : Pkg.EnigmaRotor α) :
    Pkg.enigma_apply_recursive s (rs ++ [r]) false =
      r.callSym (Pkg.enigma_apply_recursive s rs false) := by
  cases rs with
  | nil =>
    rw [List.nil_append]
    unfold Pkg.enigma_apply_recursive
    simp [enigma_apply_recursive_nil]
  | cons a tl =>
    rw [show (a :: tl) ++ [r] = a :: (tl ++ [r]) from rfl, Pkg.enigma_apply_recursive]
    simp only [Bool.false_eq_true, if_false]
    congr 1
    · exact List.getLast_append_singleton (a :: tl)
    · rw [show (a :: (tl ++ [r])).dropLast = a :: tl from by
        rw [show a :: (tl ++ [r]) = (a :: tl) ++ [r] from rfl, List.dropLast_concat]]

lemma enigma_apply_recursive_inv_append {α : Type} [DecidableEq α] (s : α)
    (rs : List (Pkg.EnigmaRotor α)) (r : Pkg.EnigmaRotor α) :
    Pkg.enigma_apply_recursive s (rs ++ [r]) true =
      Pkg.enigma_apply_recursive (r.getSym s) rs true := by
  induction rs generalizing s with
  | nil =>
    rw [List.nil_append, enigma_apply_recursive_inv_cons,
      enigma_apply_recursive_nil, enigma_apply_recursive_nil]
  | cons a tl ih =>
    rw [List.cons_append, enigma_apply_recursive_inv_cons, ih,
      enigma_apply_recursive_inv_cons]

lemma enigma_roundtrip_rotors {α : Type} [DecidableEq α]
    (rs : List (Pkg.EnigmaRotor α))
    (hg : ∀ r ∈ rs, r.init_mapping.Perm r.alphabet ∧ r.alphabet.Nodup) (s : α) :
    Pkg.enigma_apply_recursive (Pkg.enigma_apply_recursive s rs false) rs true = s := by
  induction rs using List.reverseRecOn generalizing s with
  | nil => rw [enigma_apply_recursive_nil, enigma_apply_recursive_nil]
  | append_singleton rs r ih =>
    have hr := hg r (by simp)
    rw [enigma_apply_recursive_fwd_append, enigma_apply_recursive_inv_append,
      rev_call_cancel r (mapping_list_perm r hr.1) hr.2]
    exact ih (fun x hx => hg x (by simp [hx])) s

lemma context_roundtrip {α : Type} [DecidableEq α] :
    ∀ (text : List α) (R : List (Pkg.EnigmaRotor α)),
      (∀ r ∈ R, r.init_mapping.Perm r.alphabet ∧ r.alphabet.Nodup) →
      (Pkg.context_iter ((Pkg.context_iter text R).map
          (fun p => Pkg.enigma_apply_recursive p.1 p.2 false)) R).map
        (fun p => Pkg.enigma_apply_recursive p.1 p.2 true) = text
  | [], _, _ => rfl
  | s :: rest, R, hg => by
    have hg2 : ∀ r ∈ R.map Pkg.EnigmaRotor.next,
        r.init_mapping.Perm r.alphabet ∧ r.alphabet.Nodup := by
      intro r hr
      obtain ⟨r0, hr0, hre⟩ := List.mem_map.mp hr
      rw [← hre]
      exact hg r0 hr0
    simp only [Pkg.context_iter, List.map_cons]
    rw [enigma_roundtrip_rotors (R.map Pkg.EnigmaRotor.next) hg2 s]
    rw [context_roundtrip rest (R.map Pkg.EnigmaRotor.next) hg2]

/-- Claim C3: for every rotor stack whose rotors carry a duplicate-free
alphabet permuted by their `init_mapping` (the spec's Rotor data type, whose
position constraint also forces a non-empty alphabet), equally many integer
offsets, and text drawn from the rotors' alphabets, Enigma decryption of the
Enigma encryption returns exactly the input text. -/
theorem c3_enigma_round_trip {α : Type} [DecidableEq α] (text : List α)
    (rotors : List (Pkg.EnigmaRotor α)) (offsets : List Int)
    (hlen : rotors.length = offsets.length)
    (hgood : ∀ r ∈ rotors,
      r.init_mapping.Perm r.alphabet ∧ r.alphabet.Nodup ∧ r.alphabet ≠ [])
    (htext : ∀ s ∈ text, ∀ r ∈ rotors, s ∈ r.alphabet) :
    (Pkg.enigma_encrypt_sequence text rotors offsets).bind
      (fun c => Pkg.enigma_decrypt_sequence c rotors offsets) = .ok text := by
  have hgood0 : ∀ r ∈ Pkg.context_rotors rotors offsets,
      r.init_mapping.Perm r.alphabet ∧ r.alphabet.Nodup := by
    intro r hr
    obtain ⟨ro, hro, hre⟩ := List.mem_map.mp hr
    have h1 : ro.1 ∈ rotors := (List.of_mem_zip hro).1
    have h2 := hgood ro.1 h1
    rw [← hre]
    exact ⟨h2.1, h2.2.1⟩
  simp only [Pkg.enigma_encrypt_sequence, Pkg.enigma_decrypt_sequence,
    Pkg.enigma_apply_sequence, if_neg (show ¬rotors.length ≠ offsets.length by omega),
    Except.bind]
  exact congrArg Except.ok
    (context_roundtrip text (Pkg.context_rotors rotors offsets) hgood0)

/-- Claim C3 witness at a concrete input. -/
theorem c3_witness :
    ([(⟨['a', 'b', 'c'], 0, ['b', 'c', 'a']⟩ : Pkg.EnigmaRotor Char)].length =
      ([1] : List Int).length) ∧
    (∀ r ∈ [(⟨['a', 'b', 'c'], 0, ['b', 'c', 'a']⟩ : Pkg.EnigmaRotor Char)],
      r.init_mapping.Perm r.alphabet ∧ r.alphabet.Nodup ∧ r.alphabet ≠ []) ∧
    (∀ s ∈ (['a', 'b'] : List Char),
      ∀ r ∈ [(⟨['a', 'b', 'c'], 0, ['b', 'c', 'a']⟩ : Pkg.EnigmaRotor Char)],
        s ∈ r.alphabet) ∧
    (Pkg.enigma_encrypt_sequence ['a', 'b']
        [(⟨['a', 'b', 'c'], 0, ['b', 'c', 'a']⟩ : Pkg.EnigmaRotor Char)] [1]).bind
      (fun c => Pkg.enigma_decrypt_sequence c
        [(⟨['a', 'b', 'c'], 0, ['b', 'c', 'a']⟩ : Pkg.EnigmaRotor Char)] [1]) =
      .ok ['a', 'b'] :=
  ⟨by decide, by decide, by decide,
    c3_enigma_round_trip ['a', 'b'] [⟨['a', 'b', 'c'], 0, ['b', 'c', 'a']⟩] [1]
      (by decide) (by decide) (by decide)⟩

lemma iterate_next_fields {α : Type} (k : Nat) (r : Pkg.EnigmaRotor α) :
    (Pkg.EnigmaRotor.next^[k] r).alphabet = r.alphabet ∧
    (Pkg.EnigmaRotor.next^[k] r).init_mapping = r.init_mapping := by
  induction k generalizing r with
  | zero => exact ⟨rfl, rfl⟩
  | succ k ih =>
    rw [Function.iterate_succ_apply]
    exact ih r.next

/-- Claim C5: a rotor whose `init_mapping` permutes its (duplicate-free)
alphabet and whose position is in range keeps, after any number of `__next__`
advances, a `mapping_list` that is a full permutation of the alphabet, and
its forward and reverse dicts compose to the identity on the alphabet. -/
theorem c5_rotor_invariants {α : Type} [DecidableEq α] (r : Pkg.EnigmaRotor α)
    (hperm : r.init_mapping.Perm r.alphabet) (hnd : r.alphabet.Nodup)
    (hpos : r.position < r.alphabet.length) (k : Nat) :
    ((Pkg.EnigmaRotor.next^[k] r).mapping_list).Perm r.alphabet ∧
    ∀ x ∈ r.alphabet, ∃ y,
      dlookup (Pkg.EnigmaRotor.next^[k] r).mapping x = some y ∧
      dlookup (Pkg.EnigmaRotor.next^[k] r).reverse_mapping y = some x := by
  obtain ⟨ha, hi⟩ := iterate_next_fields k r
  have hperm2 : (Pkg.EnigmaRotor.next^[k] r).init_mapping.Perm
      (Pkg.EnigmaRotor.next^[k] r).alphabet := by
    rw [ha, hi]
    exact hperm
  have hml := mapping_list_perm _ hperm2
  have hnd2 : (Pkg.EnigmaRotor.next^[k] r).alphabet.Nodup := by
    rw [ha]
    exact hnd
  constructor
  · rw [← ha]
    exact hml
  · intro x hx
    exact rotor_dict_inverse _ hml hnd2 x (by rw [ha]; exact hx)

lemma fresh_advance_pos (o : Int) (n k : Nat) (hn : 0 < n) :
    ((o.emod n).toNat + k + 1) % n = ((o + k + 1).emod n).toNat := by
  have hA0 : (0 : Int) ≤ o.emod n := Int.emod_nonneg o (by omega)
  have hA1 : o.emod n < (n : Int) := Int.emod_lt_of_pos o (by exact_mod_cast hn)
  have h3 : o + (k : Int) + 1 = o + ((k : Int) + 1) := by ring
  have h2 : ((o.emod n) + ((k : Int) + 1)).emod n = (o + ((k : Int) + 1)).emod n :=
    Int.emod_add_emod o n ((k : Int) + 1)
  have h1 : (o + k + 1).emod n = ((o.emod n) + ((k : Int) + 1)).emod n := by
    rw [h3, ← h2]
  have h4 : (o.emod n) + ((k : Int) + 1) = (((o.emod n).toNat + k + 1 : Nat) : Int) := by
    push_cast
    omega
  have h5 : ((((o.emod n).toNat + k + 1 : Nat) : Int)).emod n =
      ((((o.emod n).toNat + k + 1) % n : Nat) : Int) :=
    (Int.natCast_mod _ _).symm
  rw [h1, h4, h5, Int.toNat_natCast]

lemma iterate_next_position {α : Type} (k : Nat) (r : Pkg.EnigmaRotor α)
    (hp : r.position < r.alphabet.length) :
    Pkg.EnigmaRotor.next^[k] r =
      ⟨r.alphabet, (r.position + k) % r.alphabet.length, r.init_mapping⟩ := by
  induction k generalizing r with
  | zero =>
    cases r with
    | mk a p m =>
      simp only [Function.iterate_zero, id_eq, Nat.add_zero]
      have : p % a.length = p := Nat.mod_eq_of_lt hp
      rw [this]
  | succ k ih =>
    rw [Function.iterate_succ_apply]
    have hlen : 0 < r.alphabet.length := by omega
    have hnp : (r.next).position < (r.next).alphabet.length := by
      show (r.position + 1) % r.alphabet.length < r.alphabet.length
      exact Nat.mod_lt _ hlen
    rw [ih r.next hnp]
    have hm : ((r.position + 1) % r.alphabet.length + k) % r.alphabet.length =
        (r.position + (k + 1)) % r.alphabet.length := by
      rw [Nat.mod_add_mod]
      congr 1
      omega
    show Pkg.EnigmaRotor.mk r.alphabet
        (((r.position + 1) % r.alphabet.length + k) % r.alphabet.length)
        r.init_mapping = _
    rw [hm]

lemma map_next_iterate {α : Type} (k : Nat) (R : List (Pkg.EnigmaRotor α)) :
    (List.map Pkg.EnigmaRotor.next)^[k] R = R.map (Pkg.EnigmaRotor.next^[k]) := by
  induction k generalizing R with
  | zero => simp
  | succ k ih =>
    rw [Function.iterate_succ_apply, ih, List.map_map, Function.iterate_succ]

lemma context_iter_eq {α : Type} :
    ∀ (text : List α) (R0 : List (Pkg.EnigmaRotor α)) (n : Nat)
      (R : List (Pkg.EnigmaRotor α)),
      R = (List.map Pkg.EnigmaRotor.next)^[n] R0 →
      Pkg.context_iter text R = (pyEnum n text).map
        (fun p => (p.2, (List.map Pkg.EnigmaRotor.next)^[p.1 + 1] R0))
  | [], _, _, _, _ => rfl
  | s :: rest, R0, n, R, hR => by
    simp only [Pkg.context_iter, pyEnum, List.map_cons]
    have hhead : R.map Pkg.EnigmaRotor.next =
        (List.map Pkg.EnigmaRotor.next)^[n + 1] R0 := by
      rw [hR]
      exact (Function.iterate_succ_apply' _ _ _).symm
    rw [hhead, context_iter_eq rest R0 (n + 1) _ rfl]

/-- Claim C9 (amended): in `enigma_apply_sequence` every rotor is advanced
once before the first symbol is mapped, and the symbol at 0-based index `i`
is transformed with each rotor at position `(offset + i + 1) mod |alphabet|`.
(The further clause of the claim — that the configured starting offset is
never the position used for any symbol — is false once the advance count
wraps around the alphabet length; see the counterexample.) -/
theorem c9_rotor_positions {α : Type} [DecidableEq α] (text : List α)
    (rotors : List (Pkg.EnigmaRotor α)) (offsets : List Int) (inverted : Bool)
    (hlen : rotors.length = offsets.length)
    (hne : ∀ r ∈ rotors, r.alphabet ≠ []) :
    Pkg.enigma_apply_sequence text rotors offsets inverted =
      .ok ((pyEnum 0 text).map (fun p =>
        Pkg.enigma_apply_recursive p.2
          ((rotors.zip offsets).map (fun ro =>
            { ro.1 with
              position := ((ro.2 + p.1 + 1).emod ro.1.alphabet.length).toNat }))
          inverted)) := by
  simp only [Pkg.enigma_apply_sequence,
    if_neg (show ¬rotors.length ≠ offsets.length by omega)]
  congr 1
  rw [context_iter_eq text (Pkg.context_rotors rotors offsets) 0
    (Pkg.context_rotors rotors offsets) (by simp)]
  rw [List.map_map]
  apply List.map_congr_left
  intro p _
  show Pkg.enigma_apply_recursive p.2
      ((List.map Pkg.EnigmaRotor.next)^[p.1 + 1]
        (Pkg.context_rotors rotors offsets)) inverted = _
  congr 1
  rw [map_next_iterate, Pkg.context_rotors, List.map_map]
  apply List.map_congr_left
  intro ro hro
  have hne2 : ro.1.alphabet ≠ [] := hne ro.1 (List.of_mem_zip hro).1
  have hlen2 : 0 < ro.1.alphabet.length := List.length_pos.mpr hne2
  have hp0 : (((ro.2).emod ro.1.alphabet.length).toNat) < ro.1.alphabet.length := by
    have h0 : (0 : Int) ≤ (ro.2).emod ro.1.alphabet.length :=
      Int.emod_nonneg _ (by omega)
    have h1 : (ro.2).emod ro.1.alphabet.length < (ro.1.alphabet.length : Int) :=
      Int.emod_lt_of_pos _ (by exact_mod_cast hlen2)
    omega
  show Pkg.EnigmaRotor.next^[p.1 + 1]
      { ro.1 with position := ((ro.2).emod ro.1.alphabet.length).toNat } = _
  rw [iterate_next_position (p.1 + 1) _ hp0]
  have harith := fresh_advance_pos ro.2 ro.1.alphabet.length p.1 hlen2
  show Pkg.EnigmaRotor.mk ro.1.alphabet
      ((((ro.2).emod ro.1.alphabet.length).toNat + p.1 + 1) % ro.1.alphabet.length)
      ro.1.init_mapping = _
  rw [harith]

/-- Claim C9 witness at a concrete input. -/
theorem c9_witness :
    (([(⟨['a', 'b'], 0, ['b', 'a']⟩ : Pkg.EnigmaRotor Char)]).length =
      ([0] : List Int).length) ∧
    (∀ r ∈ [(⟨['a', 'b'], 0, ['b', 'a']⟩ : Pkg.EnigmaRotor Char)], r.alphabet ≠ []) ∧
    Pkg.enigma_apply_sequence ['a', 'a'] [⟨['a', 'b'], 0, ['b', 'a']⟩] [0] false =
      .ok ((pyEnum 0 ['a', 'a']).map (fun p =>
        Pkg.enigma_apply_recursive p.2
          (([(⟨['a', 'b'], 0, ['b', 'a']⟩ : Pkg.EnigmaRotor Char)].zip
              ([0] : List Int)).map
            (fun ro =>
              { ro.1 with
                position := ((ro.2 + p.1 + 1).emod ro.1.alphabet.length).toNat }))
          false)) :=
  ⟨by decide, by decide,
    c9_rotor_positions ['a', 'a'] [⟨['a', 'b'], 0, ['b', 'a']⟩] [0] false
      (by decide) (by decide)⟩

/-- Claim C9 counterexample: with one rotor over the 2-symbol alphabet
`['a','b']` and starting offset 0, the rotor state used for the symbol at
index 1 has position 0 — exactly the configured starting offset, refuting
the clause that the starting offset is never the position used for any
symbol. -/
theorem c9_counterexample :
    (Pkg.context_rotors [(⟨['a', 'b'], 0, ['b', 'a']⟩ : Pkg.EnigmaRotor Char)]
        [0]).map (fun r => r.position) = [0] ∧
    (Pkg.context_iter ['a', 'a']
        (Pkg.context_rotors [(⟨['a', 'b'], 0, ['b', 'a']⟩ : Pkg.EnigmaRotor Char)]
          [0])).map (fun p => p.2.map (fun r => r.position)) = [[1], [0]] := by
  decide

/-- Claim C5 witness at a concrete input. -/
theorem c5_witness :
    ((⟨['a', 'b', 'c'], 1, ['b', 'c', 'a']⟩ : Pkg.EnigmaRotor Char).init_mapping.Perm
      (⟨['a', 'b', 'c'], 1, ['b', 'c', 'a']⟩ : Pkg.EnigmaRotor Char).alphabet) ∧
    (⟨['a', 'b', 'c'], 1, ['b', 'c', 'a']⟩ : Pkg.EnigmaRotor Char).alphabet.Nodup ∧
    ((⟨['a', 'b', 'c'], 1, ['b', 'c', 'a']⟩ : Pkg.EnigmaRotor Char).position <
      (⟨['a', 'b', 'c'], 1, ['b', 'c', 'a']⟩ : Pkg.EnigmaRotor Char).alphabet.length) ∧
    (((Pkg.EnigmaRotor.next^[5]
        (⟨['a', 'b', 'c'], 1, ['b', 'c', 'a']⟩ : Pkg.EnigmaRotor Char)).mapping_list).Perm
      (⟨['a', 'b', 'c'], 1, ['b', 'c', 'a']⟩ : Pkg.EnigmaRotor Char).alphabet ∧
    ∀ x ∈ (⟨['a', 'b', 'c'], 1, ['b', 'c', 'a']⟩ : Pkg.EnigmaRotor Char).alphabet, ∃ y,
      dlookup (Pkg.EnigmaRotor.next^[5]
        (⟨['a', 'b', 'c'], 1, ['b', 'c', 'a']⟩ : Pkg.EnigmaRotor Char)).mapping x = some y ∧
      dlookup (Pkg.EnigmaRotor.next^[5]
        (⟨['a', 'b', 'c'], 1, ['b', 'c', 'a']⟩ : Pkg.EnigmaRotor Char)).reverse_mapping y =
        some x) :=
  ⟨by decide, by decide, by decide,
    c5_rotor_invariants ⟨['a', 'b', 'c'], 1, ['b', 'c', 'a']⟩
      (by decide) (by decide) (by decide) 5⟩

/-! Remaining claims: Vigenere round trip, breaker word scoring, frequency
analyzer on empty text. -/

lemma getD_mem {α : Type} : ∀ (l : List α) (i : Nat) (d : α), i < l.length →
    l.getD i d ∈ l
  | [], _, _, h => absurd h (by simp)
  | a :: _, 0, _, _ => by simp
  | a :: t, i + 1, d, h =>
    List.mem_cons_of_mem a (getD_mem t i d (Nat.lt_of_succ_lt_succ h))

lemma vigenere_subkey_ok {α : Type} [DecidableEq α] (e : Pkg.PyVal α)
    (table : List α) (h : ∀ s : α, e = Pkg.PyVal.sym s → s ∈ table) :
    Pkg.vigenere_subkey e table = .ok (Pkg.subkey_value e table) := by
  cases e with
  | int n => rfl
  | sym s =>
    have hs : s ∈ table := h s rfl
    simp [Pkg.vigenere_subkey, Pkg.hash_sequence, Pkg.subkey_value, hs]
  | seq l => rfl

/-- The `src/encrypt.py` half of claim C4. -/
lemma c4_top_half {α : Type} [DecidableEq α] (text : List α)
    (key : List (VKeyElem α)) (table : List α)
    (hk : key ≠ []) (hnd : table.Nodup) (htext : ∀ s ∈ text, s ∈ table) :
    (Top.vigenere_encrypt_sequence text key table).bind
      (fun c => Top.vigenere_decrypt_sequence c key table) = .ok text := by
  have hklen : key.length ≠ 0 := fun h0 => hk (List.length_eq_zero.mp h0)
  have hfalse1 : ¬((false = true) ∧ key.length ≠ text.length) := by simp
  have hzero1 : ¬(key.length = 0 ∧ text.length ≠ 0) := fun h0 => hklen h0.1
  simp only [Top.vigenere_encrypt_sequence, Top.vigenere_shift_sequence]
  rw [if_neg hfalse1, if_neg hzero1]
  have henc : mapE (fun p => Top.shift_symbol p.2
      (Top.subkey_offset (key.getD (p.1 % key.length) (VKeyElem.num 0)) table *
        (if false then -1 else 1)) table) (pyEnum 0 text) =
      .ok ((pyEnum 0 text).map (fun p => Pkg.shift_symbol p.2
        (Top.subkey_offset (key.getD (p.1 % key.length) (VKeyElem.num 0)) table)
        table)) := by
    apply mapE_ok_of_mem
    intro p hp
    obtain ⟨j, hj, hpe⟩ := pyEnum_mem_elim hp
    have hmem : p.2 ∈ text := by
      rw [hpe]
      exact List.get_mem _ _ _
    have hagree := shift_symbol_agree p.2
      (Top.subkey_offset (key.getD (p.1 % key.length) (VKeyElem.num 0)) table *
        (if false then -1 else 1)) table (htext p.2 hmem)
    simpa [mul_one] using hagree
  rw [henc]
  simp only [Except.bind]
  have hfalse2 : ¬((false = true) ∧ key.length ≠
      ((pyEnum 0 text).map (fun p => Pkg.shift_symbol p.2
        (Top.subkey_offset (key.getD (p.1 % key.length) (VKeyElem.num 0)) table)
        table)).length) := by simp
  have hzero2 : ¬(key.length = 0 ∧
      ((pyEnum 0 text).map (fun p => Pkg.shift_symbol p.2
        (Top.subkey_offset (key.getD (p.1 % key.length) (VKeyElem.num 0)) table)
        table)).length ≠ 0) := fun h0 => hklen h0.1
  simp only [Top.vigenere_decrypt_sequence, Top.vigenere_shift_sequence]
  rw [if_neg hfalse2, if_neg hzero2]
  apply mapE_ok_of_getElem
  · rw [pyEnum_length, List.length_map, pyEnum_length]
  · intro j hj hj2
    have hjL : j < ((pyEnum 0 text).map (fun p => Pkg.shift_symbol p.2
        (Top.subkey_offset (key.getD (p.1 % key.length) (VKeyElem.num 0)) table)
        table)).length := by
      rw [List.length_map, pyEnum_length]
      exact hj2
    have hjE : j < (pyEnum 0 text).length := by
      rw [pyEnum_length]
      exact hj2
    rw [pyEnum_get 0 _ j hj hjL]
    have hgetL : ((pyEnum 0 text).map (fun p => Pkg.shift_symbol p.2
        (Top.subkey_offset (key.getD (p.1 % key.length) (VKeyElem.num 0)) table)
        table)).get ⟨j, hjL⟩ =
        Pkg.shift_symbol (text.get ⟨j, hj2⟩)
          (Top.subkey_offset (key.getD ((0 + j) % key.length) (VKeyElem.num 0)) table)
          table := by
      simp only [List.get_eq_getElem, List.getElem_map]
      have := pyEnum_get 0 text j hjE hj2
      simp only [List.get_eq_getElem] at this
      rw [this]
    rw [hgetL]
    have hsmem : text.get ⟨j, hj2⟩ ∈ table := htext _ (List.get_mem _ _ _)
    have hshiftmem : Pkg.shift_symbol (text.get ⟨j, hj2⟩)
        (Top.subkey_offset (key.getD ((0 + j) % key.length) (VKeyElem.num 0)) table)
        table ∈ table := shift_symbol_mem _ _ _ hsmem
    rw [shift_symbol_agree _ _ _ hshiftmem]
    have hcancel := shift_shift_cancel table hnd (text.get ⟨j, hj2⟩)
      (Top.subkey_offset (key.getD ((0 + j) % key.length) (VKeyElem.num 0)) table)
      hsmem
    simpa [mul_neg_one] using hcancel

/-- The `src/src/encrypt.py` half of claim C4: the round trip holds there
when every scalar-symbol sub-key occurs in the alphabet (so that
`table.index` does not raise). -/
lemma c4_pkg_half {α : Type} [DecidableEq α] (text : List α)
    (keyP : List (Pkg.PyVal α)) (table : List α)
    (hkP : keyP ≠ []) (hnd : table.Nodup) (htext : ∀ s ∈ text, s ∈ table)
    (hkeyP : ∀ e ∈ keyP,
      (match e with | Pkg.PyVal.sym s => s ∈ table | _ => True)) :
    (Pkg.vigenere_encrypt_sequence text keyP table).bind
      (fun c => Pkg.vigenere_decrypt_sequence c keyP table) = .ok text := by
  have hklen : keyP.length ≠ 0 := fun h0 => hkP (List.length_eq_zero.mp h0)
  have hpos : 0 < keyP.length := Nat.pos_of_ne_zero hklen
  have hsub : ∀ i : Nat,
      Pkg.vigenere_subkey (keyP.getD (i % keyP.length) (Pkg.PyVal.int 0)) table =
        .ok (Pkg.subkey_value (keyP.getD (i % keyP.length) (Pkg.PyVal.int 0))
          table) := by
    intro i
    apply vigenere_subkey_ok
    intro s hse
    have hmem : keyP.getD (i % keyP.length) (Pkg.PyVal.int 0) ∈ keyP :=
      getD_mem keyP (i % keyP.length) _ (Nat.mod_lt i hpos)
    have hcond := hkeyP _ hmem
    rw [hse] at hcond
    exact hcond
  have hzero1 : ¬(keyP.length = 0 ∧ text.length ≠ 0) := fun h0 => hklen h0.1
  simp only [Pkg.vigenere_encrypt_sequence, Pkg.vigenere_shift_sequence]
  rw [if_neg hzero1]
  have henc : mapE (fun p =>
      match Pkg.vigenere_subkey (keyP.getD (p.1 % keyP.length) (Pkg.PyVal.int 0))
          table with
      | .error e => .error e
      | .ok off =>
        .ok (Pkg.shift_symbol p.2 (off * (if false then -1 else 1)) table))
      (pyEnum 0 text) =
      .ok ((pyEnum 0 text).map (fun p => Pkg.shift_symbol p.2
        (Pkg.subkey_value (keyP.getD (p.1 % keyP.length) (Pkg.PyVal.int 0)) table)
        table)) := by
    apply mapE_ok_of_mem
    intro p _
    show (match Pkg.vigenere_subkey (keyP.getD (p.1 % keyP.length) (Pkg.PyVal.int 0))
        table with
      | Except.error e => Except.error e
      | Except.ok off =>
        Except.ok (Pkg.shift_symbol p.2 (off * (if false then -1 else 1)) table)) =
      Except.ok (Pkg.shift_symbol p.2
        (Pkg.subkey_value (keyP.getD (p.1 % keyP.length) (Pkg.PyVal.int 0)) table)
        table)
    rw [hsub p.1]
    simp [mul_one]
  rw [henc]
  simp only [Except.bind]
  have hzero2 : ¬(keyP.length = 0 ∧
      ((pyEnum 0 text).map (fun p => Pkg.shift_symbol p.2
        (Pkg.subkey_value (keyP.getD (p.1 % keyP.length) (Pkg.PyVal.int 0)) table)
        table)).length ≠ 0) := fun h0 => hklen h0.1
  simp only [Pkg.vigenere_decrypt_sequence, Pkg.vigenere_shift_sequence]
  rw [if_neg hzero2]
  apply mapE_ok_of_getElem
  · rw [pyEnum_length, List.length_map, pyEnum_length]
  · intro j hj hj2
    have hjL : j < ((pyEnum 0 text).map (fun p => Pkg.shift_symbol p.2
        (Pkg.subkey_value (keyP.getD (p.1 % keyP.length) (Pkg.PyVal.int 0)) table)
        table)).length := by
      rw [List.length_map, pyEnum_length]
      exact hj2
    have hjE : j < (pyEnum 0 text).length := by
      rw [pyEnum_length]
      exact hj2
    rw [pyEnum_get 0 _ j hj hjL]
    have hgetL : ((pyEnum 0 text).map (fun p => Pkg.shift_symbol p.2
        (Pkg.subkey_value (keyP.getD (p.1 % keyP.length) (Pkg.PyVal.int 0)) table)
        table)).get ⟨j, hjL⟩ =
        Pkg.shift_symbol (text.get ⟨j, hj2⟩)
          (Pkg.subkey_value (keyP.getD ((0 + j) % keyP.length) (Pkg.PyVal.int 0))
            table)
          table := by
      simp only [List.get_eq_getElem, List.getElem_map]
      have := pyEnum_get 0 text j hjE hj2
      simp only [List.get_eq_getElem] at this
      rw [this]
    rw [hgetL]
    show (match Pkg.vigenere_subkey
        (keyP.getD ((0 + j) % keyP.length) (Pkg.PyVal.int 0)) table with
      | Except.error e => Except.error e
      | Except.ok off =>
        Except.ok (Pkg.shift_symbol
          (Pkg.shift_symbol (text.get ⟨j, hj2⟩)
            (Pkg.subkey_value (keyP.getD ((0 + j) % keyP.length) (Pkg.PyVal.int 0))
              table)
            table)
          (off * (if true then -1 else 1)) table)) =
      Except.ok (text.get ⟨j, hj2⟩)
    rw [hsub (0 + j)]
    have hsmem : text.get ⟨j, hj2⟩ ∈ table := htext _ (List.get_mem _ _ _)
    have hcancel := shift_shift_cancel table hnd (text.get ⟨j, hj2⟩)
      (Pkg.subkey_value (keyP.getD ((0 + j) % keyP.length) (Pkg.PyVal.int 0)) table)
      hsmem
    simpa [mul_neg_one] using hcancel

/-- Claim C4 (amended): for every (duplicate-free) alphabet, non-empty key
and text drawn from the alphabet, Vigenere decryption of the Vigenere
encryption returns exactly the input text: in `src/encrypt.py` for every key
of integers or symbol sequences (its hash skips out-of-alphabet symbols),
and in `src/src/encrypt.py` provided additionally that every scalar-symbol
sub-key occurs in the alphabet — in that revision a non-integer sub-key is
resolved via `table.index`, which raises `ValueError` for symbols absent
from the alphabet (see the counterexample), so the unrestricted claim fails
there. -/
theorem c4_vigenere_round_trip {α : Type} [DecidableEq α] (text : List α)
    (key : List (VKeyElem α)) (keyP : List (Pkg.PyVal α)) (table : List α)
    (hk : key ≠ []) (hkP : keyP ≠ []) (hnd : table.Nodup)
    (htext : ∀ s ∈ text, s ∈ table)
    (hkeyP : ∀ e ∈ keyP,
      (match e with | Pkg.PyVal.sym s => s ∈ table | _ => True)) :
    (Top.vigenere_encrypt_sequence text key table).bind
      (fun c => Top.vigenere_decrypt_sequence c key table) = .ok text ∧
    (Pkg.vigenere_encrypt_sequence text keyP table).bind
      (fun c => Pkg.vigenere_decrypt_sequence c keyP table) = .ok text :=
  ⟨c4_top_half text key table hk hnd htext,
    c4_pkg_half text keyP table hkP hnd htext hkeyP⟩

/-- Claim C4 counterexample: in the `src/src/encrypt.py` revision a string
key has single-symbol elements (`key[i % len(key)]` is a one-symbol string),
each resolved through the scalar branch of `hash_sequence`, i.e.
`table.index`; with key `"d"` and alphabet `['a','b','c']`, encrypting the
text `"a"` raises `ValueError`, so the round trip does not return the input
even though the text is drawn from the alphabet and the key is non-empty. -/
theorem c4_counterexample :
    Pkg.vigenere_encrypt_sequence (['a'] : List Char) [Pkg.PyVal.sym 'd']
        ['a', 'b', 'c'] = .error "ValueError: subkey is not in list" ∧
    (Pkg.vigenere_encrypt_sequence (['a'] : List Char) [Pkg.PyVal.sym 'd']
        ['a', 'b', 'c']).bind
      (fun c => Pkg.vigenere_decrypt_sequence c [Pkg.PyVal.sym 'd']
        ['a', 'b', 'c']) ≠ .ok ['a'] :=
  ⟨rfl, fun h => nomatch h⟩

/-- Claim C4 witness at a concrete input. -/
theorem c4_witness :
    ((([VKeyElem.num 1, VKeyElem.seq ['b', 'c']]) : List (VKeyElem Char)) ≠ []) ∧
    (([Pkg.PyVal.int 1, Pkg.PyVal.sym 'b'] : List (Pkg.PyVal Char)) ≠ []) ∧
    (['a', 'b', 'c'] : List Char).Nodup ∧
    (∀ s ∈ (['a', 'c', 'b'] : List Char), s ∈ (['a', 'b', 'c'] : List Char)) ∧
    (∀ e ∈ ([Pkg.PyVal.int 1, Pkg.PyVal.sym 'b'] : List (Pkg.PyVal Char)),
      (match e with
       | Pkg.PyVal.sym s => s ∈ (['a', 'b', 'c'] : List Char)
       | _ => True)) ∧
    ((Top.vigenere_encrypt_sequence ['a', 'c', 'b']
          [VKeyElem.num 1, VKeyElem.seq ['b', 'c']] ['a', 'b', 'c']).bind
        (fun c => Top.vigenere_decrypt_sequence c
          [VKeyElem.num 1, VKeyElem.seq ['b', 'c']] ['a', 'b', 'c']) =
        .ok ['a', 'c', 'b'] ∧
      (Pkg.vigenere_encrypt_sequence ['a', 'c', 'b']
          [Pkg.PyVal.int 1, Pkg.PyVal.sym 'b'] ['a', 'b', 'c']).bind
        (fun c => Pkg.vigenere_decrypt_sequence c
          [Pkg.PyVal.int 1, Pkg.PyVal.sym 'b'] ['a', 'b', 'c']) =
        .ok ['a', 'c', 'b']) :=
  ⟨by decide, by decide, by decide, by decide,
    by
      intro e he
      rcases List.mem_cons.mp he with h1 | h2
      · rw [h1]
        trivial
      · rw [List.mem_singleton.mp h2]
        decide,
    c4_vigenere_round_trip ['a', 'c', 'b'] [VKeyElem.num 1, VKeyElem.seq ['b', 'c']]
      [Pkg.PyVal.int 1, Pkg.PyVal.sym 'b'] ['a', 'b', 'c']
      (by decide) (by decide) (by decide) (by decide)
      (by
        intro e he
        rcases List.mem_cons.mp he with h1 | h2
        · rw [h1]
          trivial
        · rw [List.mem_singleton.mp h2]
          decide)⟩

/-- Claim C6 (code evaluation): the final word-scoring of
`caesar_break` in `src/src/break_lib.py` is independent of the loaded
dictionary and always equals the number of whitespace-delimited tokens of
the decryption, because the membership test compares the split token list
against itself (the local `words` shadows the dictionary); in particular,
with an empty dictionary the concrete ciphertext `"ab c"` under shift 0
still scores 2.  This contradicts the claimed behaviour of counting matches
against the loaded reference word list (which `guess_text` in
`src/break.py` does implement). -/
theorem c6_break_lib_word_scoring :
    (∀ (d1 d2 : List (List Char)) (text alphabet : List Char) (shift : Int),
      Pkg.guess_text_with_words d1 text alphabet shift =
        Pkg.guess_text_with_words d2 text alphabet shift) ∧
    (∀ (d : List (List Char)) (text alphabet : List Char) (shift : Int),
      (Pkg.guess_text_with_words d text alphabet shift).2 =
        (List.splitOn ' ' (Pkg.caesar_decrypt_sequence text shift alphabet)).length) ∧
    (Pkg.guess_text_with_words [] ['a', 'b', ' ', 'c'] ['a', 'b', 'c', ' '] 0).2 = 2 := by
  refine ⟨fun d1 d2 text alphabet shift => rfl, fun d text alphabet shift => ?_, by decide⟩
  simp only [Pkg.guess_text_with_words]
  congr 1
  apply List.filter_eq_self.mpr
  intro w hw
  simpa using hw

/-- Claim C10: `calculate_text_frequencies` fails with `ZeroDivisionError`
on the empty text for every language argument (so in particular for every
supported language): each frequency is the occurrence count divided by
`len(text)`, and the letter table — built from the module constant
`LANGUAGE`, which is supported — is non-empty, so the division is reached. -/
theorem c10_empty_text_division_by_zero (language : String) :
    Top.calculate_text_frequencies [] language = .error "ZeroDivisionError" := rfl
